import Mathlib
/-!
Verification of the card normalization and deduplication pipeline of
`services/scrapper/scryfall_scrapper.py`.

The Python functions are embedded shallowly as total Lean functions:

* JSON dictionaries become structures whose fields are `Option`-typed;
  a key that is absent and a key whose value is JSON `null` are both
  modelled as `none` (the code reads every relevant field with
  `dict.get`, which conflates exactly these two cases, except for the
  defaulted list reads, where the conflation is harmless for the
  properties below).
* `random.choice([a, b])` and `random.getrandbits(64)` are modelled by
  explicit oracles: a stream `coin : Nat → Bool` consumed in program
  order (one bit per two-way choice, `true` selects the first list
  element), and a function `g : Nat → Nat` that supplies the bits drawn
  for the record at a given input position.  Quantifying over the
  oracles quantifies over every resolution of the randomness.
* Python `float` prices are modelled by `Option ℚ` with `none` playing
  `float('inf')`; the string parser accepts plain decimal literals
  (`digits`, `digits.digits`, `.digits`, `digits.`), which is the shape
  of every price the upstream feed produces.  Exotic float syntax
  (exponents, `nan`, `inf`, underscores, signs) is treated as
  unparsable.  On decimal literals, IEEE doubles order exactly like the
  rationals they approximate at this scale, so `<` and `==` on parsed
  prices are modelled by `<` and `=` on `ℚ`.
-/
/-- Opening brace character, written via its code point. -/
def lbrace : Char := Char.ofNat 123
/-- Closing brace character, written via its code point. -/
def rbrace : Char := Char.ofNat 125
/-- Value of a digit string read in base 10, as `int(s)` does on an
all-digit string. -/
def digitsToNat (ds : List Char) : Nat :=
  ds.foldl (fun acc c => acc * 10 + (c.toNat - 48)) 0
/-- Strip of leading and trailing whitespace, as Python's `str.strip()`. -/
def stripChars (t : List Char) : List Char :=
  ((t.dropWhile Char.isWhitespace).reverse.dropWhile Char.isWhitespace).reverse
/-- Scanner state for `extractTokens`: outside a token (`none`) or inside
one with the accumulated characters (`some acc`, reversed). -/
def tokensAux : List Char → Option (List Char) → List (List Char)
  | [], _ => []
  | c :: rest, none =>
      if c = lbrace then tokensAux rest (some []) else tokensAux rest none
  | c :: rest, some acc =>
      if c = rbrace then acc.reverse :: tokensAux rest none
      else tokensAux rest (some (c :: acc))
/-- All bracketed tokens of a mana-cost string, in order: the embedding of
`re.findall(r"\x7b([^\x7d]*)\x7d", mana_cost)`. -/
def extractTokens (cs : List Char) : List (List Char) :=
  tokensAux cs none
/-- Contribution of one bracketed token, from the loop body of
`_parse_mana_cost_to_cmc`: strip, then all-digit tokens count their
value, tokens with a leading digit run count that run, anything else
counts 1. -/
def tokenValue (t : List Char) : Int :=
  let s := stripChars t
  if !s.isEmpty && s.all Char.isDigit then (digitsToNat s : Int)
  else
    match s.takeWhile Char.isDigit with
    | [] => 1
    | ds => (digitsToNat ds : Int)
/-- Accumulation loop of `_parse_mana_cost_to_cmc` (`total += ...`). -/
def manaLoop : List (List Char) → Int → Int
  | [], total => total
  | t :: ts, total => manaLoop ts (total + tokenValue t)
/-- Embedding of `_parse_mana_cost_to_cmc`: `None` and the empty string
are falsy, so they return 0; otherwise the bracketed tokens are summed. -/
def parse_mana_cost_to_cmc (mana_cost : Option String) : Int :=
  match mana_cost with
  | none => 0
  | some s => if s = "" then 0 else manaLoop (extractTokens s.toList) 0
/-- Modelled from the spec's words, for comparison with the source: the
per-token rule exactly as the claim states it, on the raw token text
(no stripping): a purely numeric token counts its value, a token
beginning with a digit run counts that run, any other token counts 1. -/
def specTokenValue (t : List Char) : Int :=
  if !t.isEmpty && t.all Char.isDigit then (digitsToNat t : Int)
  else
    match t.takeWhile Char.isDigit with
    | [] => 1
    | ds => (digitsToNat ds : Int)
/-- Modelled from the spec's words, for comparison with the source: the
evaluator as the claim describes it (null input gives 0, otherwise the
sum of `specTokenValue` over the bracketed tokens). -/
def specEvaluate (mana_cost : Option String) : Int :=
  match mana_cost with
  | none => 0
  | some s => ((extractTokens s.toList).map specTokenValue).sum
/-- The amended per-token description: identical to the claim's rule
except that each token is stripped of surrounding whitespace first,
matching the `t.strip()` in the source. -/
def specEvaluateStripped (mana_cost : Option String) : Int :=
  match mana_cost with
  | none => 0
  | some s => ((extractTokens s.toList).map (fun t => specTokenValue (stripChars t))).sum
/-- Sub-object `image_uris` of a card or face (only `png` is read). -/
structure ImageUris where
  png : Option String
deriving DecidableEq, Repr
/-- Sub-object `legalities` of a card (only `commander` is read). -/
structure Legalities where
  commander : Option String
deriving DecidableEq, Repr
/-- Sub-object `prices` of a card; the three fields are raw strings. -/
structure Prices where
  usd : Option String
  usd_foil : Option String
  usd_etched : Option String
deriving DecidableEq, Repr
/-- Sub-object `purchase_uris` of a card (only `cardmarket` is read). -/
structure PurchaseUris where
  cardmarket : Option String
deriving DecidableEq, Repr
/-- One entry of `card_faces`: the fields `filtrar_carta` reads from a
face object. -/
structure Cara where
  face_number : Option Int
  name : Option String
  mana_cost : Option String
  type_line : Option String
  oracle_text : Option String
  power : Option String
  toughness : Option String
  artist : Option String
  colors : Option (List String)
  produced_mana : Option (List String)
  image_uris : Option ImageUris
deriving DecidableEq, Repr
/-- A source card: the fields `filtrar_carta` reads from the card
object. -/
structure Carta where
  oracle_id : Option String
  id : Option String
  name : Option String
  lang : Option String
  released_at : Option String
  mana_cost : Option String
  cmc : Option Int
  face_number : Option Int
  type_line : Option String
  oracle_text : Option String
  power : Option String
  toughness : Option String
  set_name : Option String
  rarity : Option String
  artist : Option String
  colors : Option (List String)
  color_identity : Option (List String)
  keywords : Option (List String)
  produced_mana : Option (List String)
  legalities : Option Legalities
  game_changer : Option Bool
  full_art : Option Bool
  booster : Option Bool
  prices : Option Prices
  purchase_uris : Option PurchaseUris
  image_uris : Option ImageUris
  card_faces : Option (List Cara)
deriving DecidableEq, Repr
/-- A projected record, the flat dictionary built by `filtrar_carta`.
The `id` field is never set by the projector (the projected dictionary
has no `id` key, so `rec.get('id')` yields `None`), but the
deduplicator reads it, so the model carries it as an always-readable
`Option`. -/
structure Registro where
  oracle_id : Option String
  parent_id : Option String
  id : Option String
  face_number : Option Int
  name : Option String
  lang : Option String
  released_at : Option String
  image_png : Option String
  mana_cost : Option String
  cmc : Option Int
  type_line : Option String
  oracle_text : Option String
  power : Option String
  toughness : Option String
  colors : List String
  color_identity : List String
  keywords : List String
  produced_mana : List String
  commander_legality : Option String
  game_changer : Option Bool
  set_name : Option String
  rarity : Option String
  artist : Option String
  full_art : Option Bool
  booster : Option Bool
  price_usd : Option String
  price_usd_foil : Option String
  price_usd_etched : Option String
  cardmarket_url : Option String
deriving DecidableEq, Repr
/-- Record built for the face at 0-based index `i`, from the multi-face
branch of `filtrar_carta`. -/
def filtrarCara (carta : Carta) (i : Nat) (face : Cara) : Registro :=
  { oracle_id := carta.oracle_id
    parent_id := carta.id
    id := none
    face_number := some (face.face_number.getD (i : Int))
    name := face.name
    lang := carta.lang
    released_at := carta.released_at
    image_png := face.image_uris.bind ImageUris.png
    mana_cost := face.mana_cost
    cmc := some (parse_mana_cost_to_cmc face.mana_cost)
    type_line := face.type_line
    oracle_text := face.oracle_text
    power := face.power
    toughness := face.toughness
    colors := face.colors.getD []
    color_identity := carta.color_identity.getD []
    keywords := carta.keywords.getD []
    produced_mana := face.produced_mana.getD (carta.produced_mana.getD [])
    commander_legality := carta.legalities.bind Legalities.commander
    game_changer := carta.game_changer
    set_name := carta.set_name
    rarity := carta.rarity
    artist := face.artist.orElse (fun _ => carta.artist)
    full_art := carta.full_art
    booster := carta.booster
    price_usd := carta.prices.bind Prices.usd
    price_usd_foil := carta.prices.bind Prices.usd_foil
    price_usd_etched := carta.prices.bind Prices.usd_etched
    cardmarket_url := carta.purchase_uris.bind PurchaseUris.cardmarket }
/-- Record built by the single-face branch of `filtrar_carta`. -/
def filtrarSimple (carta : Carta) : Registro :=
  { oracle_id := carta.oracle_id
    parent_id := none
    id := none
    face_number := carta.face_number
    name := carta.name
    lang := carta.lang
    released_at := carta.released_at
    image_png := carta.image_uris.bind ImageUris.png
    mana_cost := carta.mana_cost
    cmc := carta.cmc
    type_line := carta.type_line
    oracle_text := carta.oracle_text
    power := carta.power
    toughness := carta.toughness
    colors := carta.colors.getD []
    color_identity := carta.color_identity.getD []
    keywords := carta.keywords.getD []
    produced_mana := carta.produced_mana.getD []
    commander_legality := carta.legalities.bind Legalities.commander
    game_changer := carta.game_changer
    set_name := carta.set_name
    rarity := carta.rarity
    artist := carta.artist
    full_art := carta.full_art
    booster := carta.booster
    price_usd := carta.prices.bind Prices.usd
    price_usd_foil := carta.prices.bind Prices.usd_foil
    price_usd_etched := carta.prices.bind Prices.usd_etched
    cardmarket_url := carta.purchase_uris.bind PurchaseUris.cardmarket }
/-- The `for i, face in enumerate(carta['card_faces'])` loop: one record
per face, carrying the running index. -/
def facesRecords (carta : Carta) : Nat → List Cara → List Registro
  | _, [] => []
  | i, face :: rest => filtrarCara carta i face :: facesRecords carta (i + 1) rest
/-- Embedding of `filtrar_carta`: the multi-face branch runs when
`card_faces` is present and non-empty, otherwise the single-face
branch produces one record. -/
def filtrar_carta (carta : Carta) : List Registro :=
  if (carta.card_faces.getD []).length > 0 then
    facesRecords carta 0 (carta.card_faces.getD [])
  else
    [filtrarSimple carta]
/-- Parser for the decimal price literals the feed produces, the
embedding of `float(p)` on them; anything else is unparsable (`none`). -/
def parseDecimal (s : String) : Option ℚ :=
  let cs := s.toList
  let intPart := cs.takeWhile (fun c => c ≠ '.')
  match cs.dropWhile (fun c => c ≠ '.') with
  | [] =>
      if !intPart.isEmpty && intPart.all Char.isDigit then
        some (mkRat (digitsToNat intPart) 1)
      else none
  | _ :: frac =>
      if (!intPart.isEmpty || !frac.isEmpty) &&
          intPart.all Char.isDigit && frac.all Char.isDigit then
        some (mkRat (digitsToNat (intPart ++ frac)) (10 ^ frac.length))
      else none
/-- Embedding of the helper `_price_value`: parse `price_usd` as a
float, with absent or unparsable prices mapping to `float('inf')`,
modelled as `none`. -/
def price_value (rec : Registro) : Option ℚ :=
  rec.price_usd.bind parseDecimal
/-- Strict order on parsed prices; `none` is `float('inf')`, so it is
never below anything, and every finite price is below it. -/
def priceLt (a b : Option ℚ) : Bool :=
  match a, b with
  | none, _ => false
  | some _, none => true
  | some x, some y => decide (x < y)
/-- Python truthiness of an optional string: `None` and `""` are falsy. -/
def truthy : Option String → Bool
  | none => false
  | some s => !s.isEmpty
/-- The identity-key fallback chain
`rec.get('oracle_id') or rec.get('parent_id') or rec.get('id')`:
the first truthy value, else the value of `id` (which may itself be
`None`, or a falsy string that is still used as the key). -/
def rawKey (rec : Registro) : Option String :=
  if truthy rec.oracle_id then rec.oracle_id
  else if truthy rec.parent_id then rec.parent_id
  else rec.id
/-- Synthetic key string built for a keyless record at input position
`i`, from the bits oracle: the embedding of
`f"_no_oracle_\x7brandom.getrandbits(64)\x7d"`. -/
def synthKey (g : Nat → Nat) (i : Nat) : String :=
  "_no_oracle_" ++ toString (g i)
/-- Identity key of the record at position `i`: the fallback chain when
it yields a value, else the synthetic key for that position. -/
def keyOf (g : Nat → Nat) (i : Nat) (rec : Registro) : String :=
  match rawKey rec with
  | some s => s
  | none => synthKey g i
/-- The input list paired with each record's identity key, positions
counted from `i0`. -/
def keyedListFrom (g : Nat → Nat) : Nat → List Registro → List (String × Registro)
  | _, [] => []
  | i, rec :: rest => (keyOf g i rec, rec) :: keyedListFrom g (i + 1) rest
/-- Keys for the whole input, positions counted from 0. -/
def keyedList (g : Nat → Nat) (recs : List Registro) : List (String × Registro) :=
  keyedListFrom g 0 recs
/-- One step of `groups.setdefault(key, []).append(rec)` on an
insertion-ordered association list. -/
def addToGroups (gs : List (String × List Registro)) (k : String) (rec : Registro) :
    List (String × List Registro) :=
  match gs with
  | [] => [(k, [rec])]
  | (k1, l) :: t =>
      if k1 = k then (k1, l ++ [rec]) :: t else (k1, l) :: addToGroups t k rec
/-- The grouping loop over the keyed records. -/
def groupsAux : List (String × List Registro) → List (String × Registro) →
    List (String × List Registro)
  | gs, [] => gs
  | gs, (k, rec) :: rest => groupsAux (addToGroups gs k rec) rest
/-- Embedding of the `groups` dictionary after the grouping loop of
`descargar_cartas_scryfall`: insertion-ordered groups of records sharing
an identity key. -/
def groupRecords (g : Nat → Nat) (recs : List Registro) : List (String × List Registro) :=
  groupsAux [] (keyedList g recs)
/-- Association-list lookup, empty when the key is absent. -/
def lookupGroup : List (String × List Registro) → String → List Registro
  | [], _ => []
  | (k1, l) :: t, k => if k1 = k then l else lookupGroup t k
/-- Resolution of `random.choice([cur, item])` between two records by
the coin stream: `true` keeps the first element. -/
def chooseR (coin : Nat → Bool) (n : Nat) (cur item : Registro) : Registro :=
  if coin n then cur else item
/-- Resolution of `random.choice([best, item])` where `best` may still
be the initial `None` sentinel. -/
def chooseO (coin : Nat → Bool) (n : Nat) (best : Option Registro) (item : Registro) :
    Option Registro :=
  if coin n then best else some item
/-- One step of the `by_face` bucket update: insert `item` under bucket
key `fk` (its own `face_number`; `none` models the `'__none__'` bucket),
keeping the cheaper record on conflicts and flipping a coin on exact
price ties.  Returns the updated buckets and coin counter. -/
def insertFace (coin : Nat → Bool) :
    List (Option Int × Registro) → Nat → Option Int → Registro →
    List (Option Int × Registro) × Nat
  | [], n, fk, item => ([(fk, item)], n)
  | (fk1, cur) :: t, n, fk, item =>
      if fk1 = fk then
        if priceLt (price_value item) (price_value cur) then ((fk1, item) :: t, n)
        else if price_value item = price_value cur then
          ((fk1, chooseR coin n cur item) :: t, n + 1)
        else ((fk1, cur) :: t, n)
      else
        let p := insertFace coin t n fk item
        ((fk1, cur) :: p.1, p.2)
/-- The `for item in items` loop filling `by_face`. -/
def buildFaces (coin : Nat → Bool) :
    List Registro → List (Option Int × Registro) → Nat →
    List (Option Int × Registro) × Nat
  | [], bf, n => (bf, n)
  | item :: rest, bf, n =>
      let p := insertFace coin bf n item.face_number item
      buildFaces coin rest p.1 p.2
/-- The running-minimum loop of the single-face branch: `best` starts as
the `None` sentinel with price `inf`, strictly cheaper items replace it,
and exact price ties flip a coin between the current `best` (possibly
still `None`) and the item. -/
def bestLoop (coin : Nat → Bool) :
    List Registro → Option Registro → Option ℚ → Nat → Option Registro × Nat
  | [], best, _, n => (best, n)
  | item :: rest, best, bp, n =>
      if priceLt (price_value item) bp then
        bestLoop coin rest (some item) (price_value item) n
      else if price_value item = bp then
        bestLoop coin rest (chooseO coin n best item) bp (n + 1)
      else bestLoop coin rest best bp n
/-- Resolution of one group: the face-bucket branch when any member has
a non-null `face_number`, else the running-minimum branch, which emits
the final `best` only when it is not the `None` sentinel. -/
def resolveGroup (coin : Nat → Bool) (n : Nat) (items : List Registro) :
    List Registro × Nat :=
  if items.any (fun item => item.face_number.isSome) then
    let p := buildFaces coin items [] n
    (p.1.map Prod.snd, p.2)
  else
    let p := bestLoop coin items none none n
    (match p.1 with | none => [] | some b => [b], p.2)
/-- The `for key, items in groups.items()` loop, threading the coin
counter across groups and concatenating the per-group emissions. -/
def dedupGroups (coin : Nat → Bool) :
    List (String × List Registro) → Nat → List Registro
  | [], _ => []
  | (_, items) :: rest, n =>
      let p := resolveGroup coin n items
      p.1 ++ dedupGroups coin rest p.2
/-- Embedding of the deduplication pass of `descargar_cartas_scryfall`:
group by identity key, then resolve every group in order. -/
def deduplicate (g : Nat → Nat) (coin : Nat → Bool) (recs : List Registro) :
    List Registro :=
  dedupGroups coin (groupRecords g recs) 0
/-- A resolution of the synthetic-key randomness is fresh for an input
when the keys it would assign are pairwise distinct and no record's
fallback-chain key collides with any of them. -/
def freshSynth (g : Nat → Nat) (recs : List Registro) : Prop :=
  (∀ i j, i < recs.length → j < recs.length → i ≠ j → synthKey g i ≠ synthKey g j) ∧
  (∀ i, i < recs.length → ∀ r ∈ recs, rawKey r ≠ some (synthKey g i))
/-- The exception classes distinguished by the `except` clauses of
`descargar_cartas_scryfall`: `requests.exceptions.RequestException`,
`json.JSONDecodeError`, and any other `Exception`. -/
inductive PyError
  | requestError
  | jsonDecodeError
  | otherError
deriving DecidableEq, Repr
/-- One entry of the upstream bulk-data catalog (the fields the
orchestrator reads to pick and download the dataset). -/
structure BulkItem where
  itemType : String
  download_uri : String
deriving DecidableEq, Repr
/-- The orchestrator's environment: every external effect inside the
`try` block, as an outcome that either yields a value or raises one of
the modelled exception classes.  `g` and `coin` resolve the
deduplicator's randomness, and `fileName` is the timestamped snapshot
name. -/
structure FetchEnv where
  bulkData : Except PyError (List BulkItem)
  downloadPayload : String → Except PyError (List Carta)
  writeSnapshot : List Registro → Except PyError Unit
  cleanupOld : Except PyError Unit
  fileName : String
  g : Nat → Nat
  coin : Nat → Bool
/-- The body of the `try` block of `descargar_cartas_scryfall`: fetch
the catalog, pick the `default_cards` entry (its absence returns `None`
without raising), download, project, deduplicate, write the snapshot,
prune, and return the snapshot name.  An `Except.error` is an exception
escaping the block. -/
def descargarBody (env : FetchEnv) : Except PyError (Option String) := do
  let bulk ← env.bulkData
  match bulk.find? (fun item => item.itemType == "default_cards") with
  | none => pure none
  | some item => do
      let cartas ← env.downloadPayload item.download_uri
      let filtradas := (cartas.map filtrar_carta).flatten
      let result := deduplicate env.g env.coin filtradas
      let _ ← env.writeSnapshot result
      let _ ← env.cleanupOld
      pure (some env.fileName)
/-- Embedding of `descargar_cartas_scryfall`: the three `except`
handlers catch every modelled exception class, log it, and return
`None`; otherwise the body's outcome is returned. -/
def descargar_cartas_scryfall (env : FetchEnv) : Option String :=
  match descargarBody env with
  | Except.ok r => r
  | Except.error _ => none
/-- A face object with every field absent. -/
def blankCara : Cara :=
  { face_number := none, name := none, mana_cost := none, type_line := none
    oracle_text := none, power := none, toughness := none, artist := none
    colors := none, produced_mana := none, image_uris := none }
/-- A source card with every field absent. -/
def blankCarta : Carta :=
  { oracle_id := none, id := none, name := none, lang := none, released_at := none
    mana_cost := none, cmc := none, face_number := none, type_line := none
    oracle_text := none, power := none, toughness := none, set_name := none
    rarity := none, artist := none, colors := none, color_identity := none
    keywords := none, produced_mana := none, legalities := none, game_changer := none
    full_art := none, booster := none, prices := none, purchase_uris := none
    image_uris := none, card_faces := none }
/-- A projected record with every optional field absent and every list
field empty. -/
def blankRegistro : Registro :=
  { oracle_id := none, parent_id := none, id := none, face_number := none
    name := none, lang := none, released_at := none, image_png := none
    mana_cost := none, cmc := none, type_line := none, oracle_text := none
    power := none, toughness := none, colors := [], color_identity := []
    keywords := [], produced_mana := [], commander_legality := none
    game_changer := none, set_name := none, rarity := none, artist := none
    full_art := none, booster := none, price_usd := none, price_usd_foil := none
    price_usd_etched := none, cardmarket_url := none }
/-- Total number of records held across all groups. -/
def totalSize (gs : List (String × List Registro)) : Nat :=
  (gs.map (fun p => p.2.length)).sum
/-- All records held across all groups, in group order. -/
def gsJoin (gs : List (String × List Registro)) : List Registro :=
  (gs.map Prod.snd).flatten
/-- Pairwise-distinct `face_number` values along a list of records. -/
def FacesDistinct (l : List Registro) : Prop :=
  l.Pairwise (fun a b => a.face_number ≠ b.face_number)
/-- Record with an identity key but no price, for exercising the
running-minimum loop against its `None` sentinel. -/
def registroTope : Registro := { blankRegistro with oracle_id := some "X" }
/-- Keyed, unpriced record distinct from `registroTope`. -/
def regFantasma : Registro := { blankRegistro with parent_id := some "P" }
/-- Keyed, unpriced record for the idempotence counterexample. -/
def regTristeza : Registro := { blankRegistro with oracle_id := some "V" }
/-- Keyed, priced record for the idempotence witness. -/
def regClaveW : Registro := { blankRegistro with oracle_id := some "W", price_usd := some "1" }
/-- Keyed, priced record for the conservation witness. -/
def regPrecio : Registro :=
  { blankRegistro with oracle_id := some "Q", price_usd := some "2.50" }
/-- Keyless priced record. -/
def regSinClaveA : Registro :=
  { blankRegistro with name := some "A", price_usd := some "1.00" }
/-- Another keyless priced record. -/
def regSinClaveB : Registro :=
  { blankRegistro with name := some "B", price_usd := some "2.00" }
/-- Record whose `oracle_id` is present but falsy. -/
def regOracleVacio : Registro :=
  { blankRegistro with oracle_id := some "", parent_id := some "PP" }
/-- A face with a mana cost of three. -/
def caraVerde : Cara := { blankCara with mana_cost := some "{2}{G}" }
/-- A two-face card whose faces carry no explicit `face_number`. -/
def cartaDosCaras : Carta :=
  { blankCarta with
    oracle_id := some "orc-1",
    id := some "scry-1",
    cmc := some 9,
    card_faces := some [blankCara, caraVerde] }
/-- A single-face card with its own `cmc` and `face_number`. -/
def cartaSimple : Carta := { blankCarta with cmc := some 5, face_number := some 2 }
/-- Environment whose very first upstream request raises. -/
def envFallo : FetchEnv :=
  { bulkData := Except.error PyError.requestError
    downloadPayload := fun _ => Except.error PyError.requestError
    writeSnapshot := fun _ => Except.ok ()
    cleanupOld := Except.ok ()
    fileName := "scryfall_cards_20250101_000000.json"
    g := fun _ => 0
    coin := fun _ => true }
theorem gsJoin_nil : gsJoin [] = [] := rfl
theorem gsJoin_cons (p : String × List Registro) (gs : List (String × List Registro)) :
    gsJoin (p :: gs) = p.2 ++ gsJoin gs := by
  simp [gsJoin]
theorem lookupGroup_addToGroups (gs : List (String × List Registro)) (k : String)
    (r : Registro) (k2 : String) :
    lookupGroup (addToGroups gs k r) k2 =
      if k2 = k then lookupGroup gs k ++ [r] else lookupGroup gs k2 := by
  induction gs with
  | nil =>
      by_cases h : k = k2
      · subst h; simp [addToGroups, lookupGroup]
      · simp [addToGroups, lookupGroup, h, Ne.symm h]
  | cons hd t ih =>
      obtain ⟨k1, l⟩ := hd
      by_cases h1 : k1 = k
      · subst h1
        by_cases h2 : k1 = k2
        · subst h2; simp [addToGroups, lookupGroup]
        · simp [addToGroups, lookupGroup, h2, Ne.symm h2]
      · by_cases h2 : k1 = k2
        · subst h2
          simp [addToGroups, lookupGroup, h1, Ne.symm h1]
        · simp [addToGroups, lookupGroup, h1, h2, ih]
theorem keys_addToGroups (gs : List (String × List Registro)) (k : String) (r : Registro) :
    (addToGroups gs k r).map Prod.fst =
      if k ∈ gs.map Prod.fst then gs.map Prod.fst else gs.map Prod.fst ++ [k] := by
  induction gs with
  | nil => simp [addToGroups]
  | cons hd t ih =>
      obtain ⟨k1, l⟩ := hd
      by_cases h1 : k1 = k
      · subst h1; simp [addToGroups]
      · by_cases hk : k ∈ t.map Prod.fst
        · simp [addToGroups, h1, ih, hk, Ne.symm h1]
        · simp [addToGroups, h1, ih, hk, Ne.symm h1]
theorem nodupKeys_addToGroups (gs : List (String × List Registro)) (k : String) (r : Registro)
    (h : (gs.map Prod.fst).Nodup) : ((addToGroups gs k r).map Prod.fst).Nodup := by
  rw [keys_addToGroups]
  split_ifs with hk
  · exact h
  · exact h.append (List.nodup_singleton k) (by simpa using fun h2 => hk h2)
theorem totalSize_addToGroups (gs : List (String × List Registro)) (k : String) (r : Registro) :
    totalSize (addToGroups gs k r) = totalSize gs + 1 := by
  induction gs with
  | nil => simp [addToGroups, totalSize]
  | cons hd t ih =>
      obtain ⟨k1, l⟩ := hd
      by_cases h1 : k1 = k <;> simp [addToGroups, h1, totalSize] <;>
        simp [totalSize] at ih <;> omega
theorem mem_gsJoin_addToGroups (gs : List (String × List Registro)) (k : String)
    (r x : Registro) :
    x ∈ gsJoin (addToGroups gs k r) ↔ x ∈ gsJoin gs ∨ x = r := by
  induction gs with
  | nil => simp [addToGroups, gsJoin]
  | cons hd t ih =>
      obtain ⟨k1, l⟩ := hd
      by_cases h1 : k1 = k
      · subst h1; simp [addToGroups, gsJoin_cons]; tauto
      · simp only [addToGroups, h1, if_false, gsJoin_cons, List.mem_append, ih]; tauto
theorem ne_nil_addToGroups (gs : List (String × List Registro)) (k : String) (r : Registro)
    (h : ∀ p ∈ gs, p.2 ≠ []) : ∀ p ∈ addToGroups gs k r, p.2 ≠ [] := by
  induction gs with
  | nil => simp [addToGroups]
  | cons hd t ih =>
      obtain ⟨k1, l⟩ := hd
      by_cases h1 : k1 = k
      · subst h1
        intro p hp
        simp [addToGroups] at hp
        rcases hp with hp | hp
        · subst hp; simp
        · exact h p (by simp [hp])
      · intro p hp
        simp [addToGroups, h1] at hp
        rcases hp with hp | hp
        · subst hp; exact h (k1, l) (by simp)
        · exact ih (fun q hq => h q (by simp [hq])) p hp
theorem lookupGroup_groupsAux (ps : List (String × Registro))
    (gs : List (String × List Registro)) (k : String) :
    lookupGroup (groupsAux gs ps) k =
      lookupGroup gs k ++ (ps.filter (fun p => decide (p.1 = k))).map Prod.snd := by
  induction ps generalizing gs with
  | nil => simp [groupsAux]
  | cons hd rest ih =>
      obtain ⟨k1, r⟩ := hd
      by_cases h1 : k1 = k
      · subst h1
        simp [groupsAux, ih, lookupGroup_addToGroups]
      · simp [groupsAux, ih, lookupGroup_addToGroups, h1, Ne.symm h1]
theorem nodupKeys_groupsAux (ps : List (String × Registro))
    (gs : List (String × List Registro)) (h : (gs.map Prod.fst).Nodup) :
    ((groupsAux gs ps).map Prod.fst).Nodup := by
  induction ps generalizing gs with
  | nil => exact h
  | cons hd rest ih => exact ih _ (nodupKeys_addToGroups _ _ _ h)
theorem totalSize_groupsAux (ps : List (String × Registro))
    (gs : List (String × List Registro)) :
    totalSize (groupsAux gs ps) = totalSize gs + ps.length := by
  induction ps generalizing gs with
  | nil => simp [groupsAux]
  | cons hd rest ih => simp [groupsAux, ih, totalSize_addToGroups]; omega
theorem mem_gsJoin_groupsAux (ps : List (String × Registro))
    (gs : List (String × List Registro)) (x : Registro) :
    x ∈ gsJoin (groupsAux gs ps) ↔ x ∈ gsJoin gs ∨ x ∈ ps.map Prod.snd := by
  induction ps generalizing gs with
  | nil => simp [groupsAux]
  | cons hd rest ih =>
      simp [groupsAux, ih, mem_gsJoin_addToGroups]
      tauto
theorem keys_groupsAux_mem (ps : List (String × Registro))
    (gs : List (String × List Registro)) (k : String) :
    k ∈ (groupsAux gs ps).map Prod.fst ↔ k ∈ gs.map Prod.fst ∨ k ∈ ps.map Prod.fst := by
  induction ps generalizing gs with
  | nil => simp [groupsAux]
  | cons hd rest ih =>
      obtain ⟨k1, r⟩ := hd
      simp only [groupsAux, ih, keys_addToGroups]
      split_ifs with hk
      · by_cases h1 : k = k1 <;> simp [h1, hk]
      · by_cases h1 : k = k1 <;> simp [h1, hk]
theorem ne_nil_groupsAux (ps : List (String × Registro))
    (gs : List (String × List Registro)) (h : ∀ p ∈ gs, p.2 ≠ []) :
    ∀ p ∈ groupsAux gs ps, p.2 ≠ [] := by
  induction ps generalizing gs with
  | nil => exact h
  | cons hd rest ih => exact ih _ (ne_nil_addToGroups _ _ _ h)
theorem mem_groups_lookup (gs : List (String × List Registro)) (k : String)
    (l : List Registro) (hnd : (gs.map Prod.fst).Nodup) (h : (k, l) ∈ gs) :
    lookupGroup gs k = l := by
  induction gs with
  | nil => simp at h
  | cons hd t ih =>
      obtain ⟨k1, l1⟩ := hd
      simp at h hnd
      rcases h with ⟨h1, h2⟩ | h
      · simp [lookupGroup, h1, h2]
      · have hk1 : k1 ≠ k := by
          intro he
          subst he
          exact hnd.1 l h
        simp [lookupGroup, hk1, ih hnd.2 h]
theorem lookup_mem_groups (gs : List (String × List Registro)) (k : String)
    (h : k ∈ gs.map Prod.fst) : (k, lookupGroup gs k) ∈ gs := by
  induction gs with
  | nil => simp at h
  | cons hd t ih =>
      obtain ⟨k1, l1⟩ := hd
      by_cases h1 : k1 = k
      · subst h1; simp [lookupGroup]
      · simp only [List.map_cons, List.mem_cons] at h
        rcases h with h | h
        · exact absurd h.symm h1
        · simp only [lookupGroup, h1, if_false]
          exact List.mem_cons_of_mem _ (ih h)
theorem keyedListFrom_length (g : Nat → Nat) (i0 : Nat) (recs : List Registro) :
    (keyedListFrom g i0 recs).length = recs.length := by
  induction recs generalizing i0 with
  | nil => simp [keyedListFrom]
  | cons r rest ih => simp [keyedListFrom, ih]
theorem keyedListFrom_map_snd (g : Nat → Nat) (i0 : Nat) (recs : List Registro) :
    (keyedListFrom g i0 recs).map Prod.snd = recs := by
  induction recs generalizing i0 with
  | nil => simp [keyedListFrom]
  | cons r rest ih => simp [keyedListFrom, ih]
theorem keyedListFrom_key (g : Nat → Nat) (i0 : Nat) (recs : List Registro)
    (p : String × Registro) (hp : p ∈ keyedListFrom g i0 recs) (k : String)
    (hk : rawKey p.2 = some k) : p.1 = k := by
  induction recs generalizing i0 with
  | nil => simp [keyedListFrom] at hp
  | cons r rest ih =>
      simp [keyedListFrom] at hp
      rcases hp with hp | hp
      · subst hp; simp at hk; simp [keyOf, hk]
      · exact ih _ hp
theorem keyedListFrom_snd_mem (g : Nat → Nat) (i0 : Nat) (recs : List Registro)
    (p : String × Registro) (hp : p ∈ keyedListFrom g i0 recs) : p.2 ∈ recs := by
  induction recs generalizing i0 with
  | nil => simp [keyedListFrom] at hp
  | cons r rest ih =>
      simp [keyedListFrom] at hp
      rcases hp with hp | hp
      · subst hp; simp
      · exact List.mem_cons_of_mem _ (ih _ hp)
theorem keyedListFrom_filter_nil (g : Nat → Nat) (recs : List Registro) (i0 : Nat) (k : String)
    (h : ∀ j (hj : j < recs.length), keyOf g (i0 + j) (recs.get ⟨j, hj⟩) ≠ k) :
    (keyedListFrom g i0 recs).filter (fun p => decide (p.1 = k)) = [] := by
  induction recs generalizing i0 with
  | nil => simp [keyedListFrom]
  | cons r rest ih =>
      have h0 : keyOf g i0 r ≠ k := by simpa using h 0 (by simp)
      have hrest : ∀ j (hj : j < rest.length), keyOf g (i0 + 1 + j) (rest.get ⟨j, hj⟩) ≠ k := by
        intro j hj
        have e : i0 + (j + 1) = i0 + 1 + j := by omega
        have := h (j + 1) (by simpa using Nat.succ_lt_succ hj)
        rw [e] at this
        simpa using this
      simp [keyedListFrom, h0, ih _ hrest]
theorem keyedListFrom_filter_one (g : Nat → Nat) (recs : List Registro) (i0 i : Nat)
    (k : String) (hi : i < recs.length)
    (h : ∀ j (hj : j < recs.length), keyOf g (i0 + j) (recs.get ⟨j, hj⟩) = k ↔ j = i) :
    (keyedListFrom g i0 recs).filter (fun p => decide (p.1 = k)) =
      [(k, recs.get ⟨i, hi⟩)] := by
  induction recs generalizing i0 i with
  | nil => simp at hi
  | cons r rest ih =>
      cases i with
      | zero =>
          have h0 : keyOf g i0 r = k := by simpa using (h 0 (by simp)).mpr rfl
          have hrest : ∀ j (hj : j < rest.length),
              keyOf g (i0 + 1 + j) (rest.get ⟨j, hj⟩) ≠ k := by
            intro j hj hc
            have e : i0 + (j + 1) = i0 + 1 + j := by omega
            have h2 := (h (j + 1) (by simpa using Nat.succ_lt_succ hj)).mp
            rw [e] at h2
            have := h2 (by simpa using hc)
            omega
          simp [keyedListFrom, h0, keyedListFrom_filter_nil g rest (i0 + 1) k hrest]
      | succ i2 =>
          have h0 : keyOf g i0 r ≠ k := by
            intro hc
            have := (h 0 (by simp)).mp (by simpa using hc)
            omega
          have hi2 : i2 < rest.length := by simpa using hi
          have hrest : ∀ j (hj : j < rest.length),
              keyOf g (i0 + 1 + j) (rest.get ⟨j, hj⟩) = k ↔ j = i2 := by
            intro j hj
            have e : i0 + (j + 1) = i0 + 1 + j := by omega
            have h2 := h (j + 1) (by simpa using Nat.succ_lt_succ hj)
            rw [e] at h2
            constructor
            · intro hc
              have := h2.mp (by simpa using hc)
              omega
            · intro hc
              subst hc
              simpa using h2.mpr rfl
          simpa [keyedListFrom, h0] using ih (i0 + 1) i2 hi2 hrest
theorem keyedListFrom_filter_real (g : Nat → Nat) (recs : List Registro) (i0 : Nat)
    (k : String)
    (h : ∀ j (hj : j < recs.length), rawKey (recs.get ⟨j, hj⟩) = none →
      synthKey g (i0 + j) ≠ k) :
    ((keyedListFrom g i0 recs).filter (fun p => decide (p.1 = k))).map Prod.snd =
      recs.filter (fun r => decide (rawKey r = some k)) := by
  induction recs generalizing i0 with
  | nil => simp [keyedListFrom]
  | cons r rest ih =>
      have hrest : ∀ j (hj : j < rest.length), rawKey (rest.get ⟨j, hj⟩) = none →
          synthKey g (i0 + 1 + j) ≠ k := by
        intro j hj hr
        have e : i0 + (j + 1) = i0 + 1 + j := by omega
        have := h (j + 1) (by simpa using Nat.succ_lt_succ hj) (by simpa using hr)
        rw [e] at this
        exact this
      cases hr : rawKey r with
      | some s =>
          by_cases hs : s = k
          · subst hs
            simp [keyedListFrom, keyOf, hr, ih _ hrest]
          · simp [keyedListFrom, keyOf, hr, hs, ih _ hrest]
      | none =>
          have h0 : synthKey g i0 ≠ k := by simpa using h 0 (by simp) (by simpa using hr)
          simp [keyedListFrom, keyOf, hr, h0, ih _ hrest]
theorem chooseR_cases (coin : Nat → Bool) (n : Nat) (cur item : Registro) :
    chooseR coin n cur item = cur ∨ chooseR coin n cur item = item := by
  unfold chooseR; split <;> simp
theorem chooseO_cases (coin : Nat → Bool) (n : Nat) (best : Option Registro)
    (item : Registro) :
    chooseO coin n best item = best ∨ chooseO coin n best item = some item := by
  unfold chooseO; split <;> simp
theorem priceLt_irrefl (a : Option ℚ) : priceLt a a = false := by
  cases a <;> simp [priceLt]
theorem insertFace_cons_lt (coin : Nat → Bool) (t : List (Option Int × Registro)) (n : Nat)
    (fk : Option Int) (cur item : Registro)
    (h : priceLt (price_value item) (price_value cur) = true) :
    insertFace coin ((fk, cur) :: t) n fk item = ((fk, item) :: t, n) := by
  simp only [insertFace, if_pos rfl, if_pos h]
  simp
theorem insertFace_cons_eq (coin : Nat → Bool) (t : List (Option Int × Registro)) (n : Nat)
    (fk : Option Int) (cur item : Registro)
    (h2 : ¬priceLt (price_value item) (price_value cur) = true)
    (h3 : price_value item = price_value cur) :
    insertFace coin ((fk, cur) :: t) n fk item =
      ((fk, chooseR coin n cur item) :: t, n + 1) := by
  simp only [insertFace, if_pos rfl, if_neg h2, if_pos h3]
  simp
theorem insertFace_cons_gt (coin : Nat → Bool) (t : List (Option Int × Registro)) (n : Nat)
    (fk : Option Int) (cur item : Registro)
    (h2 : ¬priceLt (price_value item) (price_value cur) = true)
    (h3 : ¬price_value item = price_value cur) :
    insertFace coin ((fk, cur) :: t) n fk item = ((fk, cur) :: t, n) := by
  simp only [insertFace, if_pos rfl, if_neg h2, if_neg h3]
  simp
theorem insertFace_cons_ne (coin : Nat → Bool) (t : List (Option Int × Registro)) (n : Nat)
    (fk1 fk : Option Int) (cur item : Registro) (h : ¬fk1 = fk) :
    insertFace coin ((fk1, cur) :: t) n fk item =
      ((fk1, cur) :: (insertFace coin t n fk item).1, (insertFace coin t n fk item).2) := by
  simp only [insertFace, if_neg h]
theorem insertFace_head_cases (coin : Nat → Bool) (t : List (Option Int × Registro))
    (n : Nat) (fk : Option Int) (cur item : Registro) :
    (insertFace coin ((fk, cur) :: t) n fk item).1 = (fk, item) :: t ∨
    (insertFace coin ((fk, cur) :: t) n fk item).1 = (fk, cur) :: t ∨
    (insertFace coin ((fk, cur) :: t) n fk item).1 =
      (fk, chooseR coin n cur item) :: t := by
  by_cases h2 : priceLt (price_value item) (price_value cur) = true
  · rw [insertFace_cons_lt coin t n fk cur item h2]; simp
  · by_cases h3 : price_value item = price_value cur
    · rw [insertFace_cons_eq coin t n fk cur item h2 h3]; simp
    · rw [insertFace_cons_gt coin t n fk cur item h2 h3]; simp
theorem insertFace_keys (coin : Nat → Bool) (bf : List (Option Int × Registro)) (n : Nat)
    (fk : Option Int) (item : Registro) :
    ((insertFace coin bf n fk item).1).map Prod.fst =
      if fk ∈ bf.map Prod.fst then bf.map Prod.fst else bf.map Prod.fst ++ [fk] := by
  induction bf generalizing n with
  | nil => simp [insertFace]
  | cons hd t ih =>
      obtain ⟨fk1, cur⟩ := hd
      by_cases h1 : fk1 = fk
      · subst h1
        rcases insertFace_head_cases coin t n fk1 cur item with hc | hc | hc <;>
          simp [hc]
      · rw [insertFace_cons_ne coin t n fk1 fk cur item h1]
        by_cases hk : fk ∈ t.map Prod.fst <;>
          simp [h1, Ne.symm h1, ih, hk]
theorem insertFace_faces (coin : Nat → Bool) (bf : List (Option Int × Registro)) (n : Nat)
    (fk : Option Int) (item : Registro)
    (hbf : ∀ p ∈ bf, p.2.face_number = p.1) (hit : item.face_number = fk) :
    ∀ p ∈ (insertFace coin bf n fk item).1, p.2.face_number = p.1 := by
  induction bf generalizing n with
  | nil => simpa [insertFace] using hit
  | cons hd t ih =>
      obtain ⟨fk1, cur⟩ := hd
      have hcur : cur.face_number = fk1 := hbf (fk1, cur) (by simp)
      have htail : ∀ p ∈ t, p.2.face_number = p.1 := fun q hq => hbf q (by simp [hq])
      by_cases h1 : fk1 = fk
      · subst h1
        rcases insertFace_head_cases coin t n fk1 cur item with hc | hc | hc <;>
          rw [hc] <;> intro p hp <;> rcases List.mem_cons.mp hp with hp | hp
        · subst hp; exact hit
        · exact htail p hp
        · subst hp; exact hcur
        · exact htail p hp
        · subst hp
          rcases chooseR_cases coin n cur item with hch | hch <;> simp [hch, hcur, hit]
        · exact htail p hp
      · rw [insertFace_cons_ne coin t n fk1 fk cur item h1]
        intro p hp
        rcases List.mem_cons.mp hp with hp | hp
        · subst hp; exact hcur
        · exact ih n htail p hp
theorem insertFace_mem (coin : Nat → Bool) (bf : List (Option Int × Registro)) (n : Nat)
    (fk : Option Int) (item : Registro) :
    ∀ p ∈ (insertFace coin bf n fk item).1, p.2 ∈ bf.map Prod.snd ∨ p.2 = item := by
  induction bf generalizing n with
  | nil => simp [insertFace]
  | cons hd t ih =>
      obtain ⟨fk1, cur⟩ := hd
      by_cases h1 : fk1 = fk
      · subst h1
        rcases insertFace_head_cases coin t n fk1 cur item with hc | hc | hc <;>
          rw [hc] <;> intro p hp <;> rcases List.mem_cons.mp hp with hp | hp
        · subst hp; simp
        · exact Or.inl (List.mem_cons_of_mem _ (List.mem_map_of_mem Prod.snd hp))
        · subst hp; simp
        · exact Or.inl (List.mem_cons_of_mem _ (List.mem_map_of_mem Prod.snd hp))
        · subst hp
          rcases chooseR_cases coin n cur item with hch | hch <;> simp [hch]
        · exact Or.inl (List.mem_cons_of_mem _ (List.mem_map_of_mem Prod.snd hp))
      · rw [insertFace_cons_ne coin t n fk1 fk cur item h1]
        intro p hp
        rcases List.mem_cons.mp hp with hp | hp
        · subst hp; simp
        · rcases ih n p hp with hm | hm
          · exact Or.inl (List.mem_cons_of_mem _ hm)
          · exact Or.inr hm
theorem insertFace_length_le (coin : Nat → Bool) (bf : List (Option Int × Registro))
    (n : Nat) (fk : Option Int) (item : Registro) :
    (insertFace coin bf n fk item).1.length ≤ bf.length + 1 := by
  induction bf generalizing n with
  | nil => simp [insertFace]
  | cons hd t ih =>
      obtain ⟨fk1, cur⟩ := hd
      by_cases h1 : fk1 = fk
      · subst h1
        rcases insertFace_head_cases coin t n fk1 cur item with hc | hc | hc <;>
          simp [hc]
      · rw [insertFace_cons_ne coin t n fk1 fk cur item h1]
        simpa using ih n
theorem insertFace_length_ge (coin : Nat → Bool) (bf : List (Option Int × Registro))
    (n : Nat) (fk : Option Int) (item : Registro) :
    bf.length ≤ (insertFace coin bf n fk item).1.length := by
  induction bf generalizing n with
  | nil => simp [insertFace]
  | cons hd t ih =>
      obtain ⟨fk1, cur⟩ := hd
      by_cases h1 : fk1 = fk
      · subst h1
        rcases insertFace_head_cases coin t n fk1 cur item with hc | hc | hc <;>
          simp [hc]
      · rw [insertFace_cons_ne coin t n fk1 fk cur item h1]
        simpa using ih n
theorem insertFace_fresh (coin : Nat → Bool) (bf : List (Option Int × Registro)) (n : Nat)
    (fk : Option Int) (item : Registro) (h : fk ∉ bf.map Prod.fst) :
    insertFace coin bf n fk item = (bf ++ [(fk, item)], n) := by
  induction bf generalizing n with
  | nil => simp [insertFace]
  | cons hd t ih =>
      obtain ⟨fk1, cur⟩ := hd
      have h1 : fk1 ≠ fk := by
        intro he; exact h (by simp [he])
      have h2 : fk ∉ t.map Prod.fst := by
        intro he; exact h (by simp [he])
      rw [insertFace_cons_ne coin t n fk1 fk cur item h1, ih n h2]
      simp
theorem buildFaces_keys_nodup (coin : Nat → Bool) (items : List Registro)
    (bf : List (Option Int × Registro)) (n : Nat) (h : (bf.map Prod.fst).Nodup) :
    (((buildFaces coin items bf n).1).map Prod.fst).Nodup := by
  induction items generalizing bf n with
  | nil => simpa [buildFaces] using h
  | cons item rest ih =>
      simp only [buildFaces]
      apply ih
      rw [insertFace_keys]
      split_ifs with hk
      · exact h
      · exact h.append (List.nodup_singleton _) (by simpa using fun h2 => hk h2)
theorem buildFaces_faces (coin : Nat → Bool) (items : List Registro)
    (bf : List (Option Int × Registro)) (n : Nat)
    (h : ∀ p ∈ bf, p.2.face_number = p.1) :
    ∀ p ∈ (buildFaces coin items bf n).1, p.2.face_number = p.1 := by
  induction items generalizing bf n with
  | nil => simpa [buildFaces] using h
  | cons item rest ih =>
      simp only [buildFaces]
      exact ih _ _ (insertFace_faces coin bf n item.face_number item h rfl)
theorem buildFaces_mem (coin : Nat → Bool) (items : List Registro)
    (bf : List (Option Int × Registro)) (n : Nat) :
    ∀ p ∈ (buildFaces coin items bf n).1, p.2 ∈ bf.map Prod.snd ∨ p.2 ∈ items := by
  induction items generalizing bf n with
  | nil =>
      intro p hp
      exact Or.inl (List.mem_map_of_mem Prod.snd (by simpa [buildFaces] using hp))
  | cons item rest ih =>
      simp only [buildFaces]
      intro p hp
      rcases ih _ _ p hp with hm | hm
      · rcases List.mem_map.mp hm with ⟨q, hq, hq2⟩
        rcases insertFace_mem coin bf n item.face_number item q hq with hm2 | hm2
        · exact Or.inl (hq2 ▸ hm2)
        · exact Or.inr (by simp [← hq2, hm2])
      · exact Or.inr (by simp [hm])
theorem buildFaces_length_le (coin : Nat → Bool) (items : List Registro)
    (bf : List (Option Int × Registro)) (n : Nat) :
    (buildFaces coin items bf n).1.length ≤ bf.length + items.length := by
  induction items generalizing bf n with
  | nil => simp [buildFaces]
  | cons item rest ih =>
      simp only [buildFaces]
      calc (buildFaces coin rest (insertFace coin bf n item.face_number item).1
              (insertFace coin bf n item.face_number item).2).1.length
          ≤ (insertFace coin bf n item.face_number item).1.length + rest.length := ih _ _
        _ ≤ bf.length + 1 + rest.length := by
              have := insertFace_length_le coin bf n item.face_number item
              omega
        _ = bf.length + (rest.length + 1) := by omega
        _ = bf.length + (item :: rest).length := by simp
theorem buildFaces_length_ge (coin : Nat → Bool) (items : List Registro)
    (bf : List (Option Int × Registro)) (n : Nat) :
    bf.length ≤ (buildFaces coin items bf n).1.length := by
  induction items generalizing bf n with
  | nil => simp [buildFaces]
  | cons item rest ih =>
      simp only [buildFaces]
      have h1 := insertFace_length_ge coin bf n item.face_number item
      have h2 := ih (insertFace coin bf n item.face_number item).1
        (insertFace coin bf n item.face_number item).2
      omega
theorem buildFaces_fresh (coin : Nat → Bool) (items : List Registro)
    (bf : List (Option Int × Registro)) (n : Nat)
    (hdisj : ∀ item ∈ items, item.face_number ∉ bf.map Prod.fst)
    (hpair : items.Pairwise (fun a b => a.face_number ≠ b.face_number)) :
    buildFaces coin items bf n = (bf ++ items.map (fun r => (r.face_number, r)), n) := by
  induction items generalizing bf n with
  | nil => simp [buildFaces]
  | cons item rest ih =>
      simp only [buildFaces]
      rw [insertFace_fresh coin bf n item.face_number item
        (hdisj item (by simp))]
      rw [ih (bf ++ [(item.face_number, item)]) n ?hd ?hp]
      · simp
      case hd =>
        intro q hq
        simp only [List.map_append, List.mem_append]
        rintro (hc | hc)
        · exact (hdisj q (by simp [hq])) hc
        · simp at hc
          exact (List.pairwise_cons.mp hpair).1 q hq hc.symm
      case hp => exact (List.pairwise_cons.mp hpair).2
theorem chooseO_isSome (coin : Nat → Bool) (n : Nat) (best : Option Registro)
    (item : Registro) (h : best.isSome = true) :
    (chooseO coin n best item).isSome = true := by
  unfold chooseO; split <;> simp [h]
theorem bestLoop_mem (coin : Nat → Bool) (items : List Registro) (best : Option Registro)
    (bp : Option ℚ) (n : Nat) (b : Registro)
    (hb : (bestLoop coin items best bp n).1 = some b) : best = some b ∨ b ∈ items := by
  induction items generalizing best bp n with
  | nil => simp [bestLoop] at hb; simp [hb]
  | cons item rest ih =>
      simp only [bestLoop] at hb
      split_ifs at hb with h1 h2
      · rcases ih _ _ _ hb with hm | hm
        · exact Or.inr (by simp [Option.some_inj.mp hm])
        · exact Or.inr (by simp [hm])
      · rcases ih _ _ _ hb with hm | hm
        · rcases chooseO_cases coin n best item with hc | hc
          · exact Or.inl (hc ▸ hm)
          · rw [hc] at hm
            exact Or.inr (by simp [Option.some_inj.mp hm])
        · exact Or.inr (by simp [hm])
      · rcases ih _ _ _ hb with hm | hm
        · exact Or.inl hm
        · exact Or.inr (by simp [hm])
theorem bestLoop_isSome_mono (coin : Nat → Bool) (items : List Registro)
    (best : Option Registro) (bp : Option ℚ) (n : Nat) (h : best.isSome = true) :
    ((bestLoop coin items best bp n).1).isSome = true := by
  induction items generalizing best bp n with
  | nil => simpa [bestLoop] using h
  | cons item rest ih =>
      simp only [bestLoop]
      split_ifs with h1 h2
      · exact ih _ _ _ (by simp)
      · exact ih _ _ _ (chooseO_isSome coin n best item h)
      · exact ih _ _ _ h
theorem bestLoop_isSome (coin : Nat → Bool) (items : List Registro)
    (best : Option Registro) (bp : Option ℚ) (n : Nat)
    (hinv : bp = none ∨ best.isSome = true)
    (hex : ∃ i ∈ items, (price_value i).isSome = true) :
    ((bestLoop coin items best bp n).1).isSome = true := by
  induction items generalizing best bp n with
  | nil => simp at hex
  | cons item rest ih =>
      simp only [bestLoop]
      split_ifs with h1 h2
      · exact bestLoop_isSome_mono coin rest _ _ _ (by simp)
      · rcases hinv with hbp | hbs
        · subst hbp
          have hitem : price_value item = none := by
            rcases h : price_value item with _ | q
            · rfl
            · rw [h] at h2; simp at h2
          have hrest : ∃ i ∈ rest, (price_value i).isSome = true := by
            rcases hex with ⟨i, hi, hp⟩
            rcases List.mem_cons.mp hi with hi | hi
            · subst hi; rw [hitem] at hp; simp at hp
            · exact ⟨i, hi, hp⟩
          exact ih _ _ _ (Or.inl rfl) hrest
        · exact bestLoop_isSome_mono coin rest _ _ _
            (chooseO_isSome coin n best item hbs)
      · have hbs : best.isSome = true := by
          rcases hinv with hbp | hbs
          · subst hbp
            rcases h : price_value item with _ | q
            · rw [h] at h2; simp at h2
            · rw [h] at h1; simp [priceLt] at h1
          · exact hbs
        exact bestLoop_isSome_mono coin rest _ _ _ hbs
theorem bestLoop_singleton_keep (coin : Nat → Bool) (n : Nat) (r : Registro)
    (hc : coin n = false) : (bestLoop coin [r] none none n).1 = some r := by
  rcases h : price_value r with _ | q
  · simp [bestLoop, priceLt, h, chooseO, hc]
  · simp [bestLoop, priceLt, h]
theorem resolveGroup_subset (coin : Nat → Bool) (n : Nat) (items : List Registro) :
    ∀ r ∈ (resolveGroup coin n items).1, r ∈ items := by
  unfold resolveGroup
  split_ifs with hface
  · intro r hr
    simp only at hr
    rcases List.mem_map.mp hr with ⟨p, hp, hp2⟩
    rcases buildFaces_mem coin items [] n p hp with hm | hm
    · simp at hm
    · exact hp2 ▸ hm
  · intro r hr
    simp only at hr
    rcases hbl : (bestLoop coin items none none n).1 with _ | b
    · rw [hbl] at hr; simp at hr
    · rw [hbl] at hr
      simp at hr
      subst hr
      rcases bestLoop_mem coin items none none n r hbl with hm | hm
      · simp at hm
      · exact hm
theorem resolveGroup_length (coin : Nat → Bool) (n : Nat) (items : List Registro)
    (h : items ≠ []) : (resolveGroup coin n items).1.length ≤ items.length := by
  unfold resolveGroup
  split_ifs with hface
  · simp only [List.length_map]
    simpa using buildFaces_length_le coin items [] n
  · simp only
    rcases hbl : (bestLoop coin items none none n).1 with _ | b
    · simp
    · have : 1 ≤ items.length := by
        cases items
        · simp at h
        · simp
      simpa using this
theorem resolveGroup_facesDistinct (coin : Nat → Bool) (n : Nat) (items : List Registro) :
    FacesDistinct (resolveGroup coin n items).1 := by
  unfold resolveGroup
  split_ifs with hface
  · simp only
    have hnd : (((buildFaces coin items [] n).1).map Prod.fst).Nodup :=
      buildFaces_keys_nodup coin items [] n (by simp)
    have hfc : ∀ p ∈ (buildFaces coin items [] n).1, p.2.face_number = p.1 :=
      buildFaces_faces coin items [] n (by simp)
    have hpw : ((buildFaces coin items [] n).1).Pairwise (fun p q => p.1 ≠ q.1) :=
      List.pairwise_map.mp hnd
    unfold FacesDistinct
    rw [List.pairwise_map]
    refine List.Pairwise.imp_of_mem ?_ hpw
    intro a b ha hb hab
    rw [hfc a ha, hfc b hb]
    exact hab
  · simp only
    rcases hbl : (bestLoop coin items none none n).1 with _ | b
    · simp [FacesDistinct]
    · simp [FacesDistinct]
theorem resolveGroup_eq_self (n : Nat) (items : List Registro)
    (hpair : FacesDistinct items) (hne : items ≠ []) :
    (resolveGroup (fun _ => false) n items).1 = items := by
  unfold resolveGroup
  split_ifs with hface
  · simp only
    rw [buildFaces_fresh (fun _ => false) items [] n (by simp) hpair]
    simp [List.map_map]
    exact List.map_id items
  · have hall : ∀ x ∈ items, x.face_number = none := by
      simp at hface
      exact hface
    obtain ⟨r, hr⟩ : ∃ r, items = [r] := by
      cases items with
      | nil => exact absurd rfl hne
      | cons r1 t =>
          cases t with
          | nil => exact ⟨r1, rfl⟩
          | cons r2 t2 =>
              have h1 : r1.face_number = none := hall r1 (by simp)
              have h2 : r2.face_number = none := hall r2 (by simp)
              have := (List.pairwise_cons.mp hpair).1 r2 (by simp)
              rw [h1, h2] at this
              exact absurd rfl this
    subst hr
    simp only
    rw [bestLoop_singleton_keep (fun _ => false) n r rfl]
theorem dedupGroups_subset (coin : Nat → Bool) (gs : List (String × List Registro))
    (n : Nat) : ∀ r ∈ dedupGroups coin gs n, ∃ p ∈ gs, r ∈ p.2 := by
  induction gs generalizing n with
  | nil => simp [dedupGroups]
  | cons hd rest ih =>
      obtain ⟨k, items⟩ := hd
      intro r hr
      simp only [dedupGroups, List.mem_append] at hr
      rcases hr with hr | hr
      · exact ⟨(k, items), by simp, resolveGroup_subset coin n items r hr⟩
      · rcases ih _ r hr with ⟨p, hp, hp2⟩
        exact ⟨p, by simp [hp], hp2⟩
theorem dedupGroups_length (coin : Nat → Bool) (gs : List (String × List Registro))
    (n : Nat) (h : ∀ p ∈ gs, p.2 ≠ []) :
    (dedupGroups coin gs n).length ≤ totalSize gs := by
  induction gs generalizing n with
  | nil => simp [dedupGroups, totalSize]
  | cons hd rest ih =>
      obtain ⟨k, items⟩ := hd
      simp only [dedupGroups, List.length_append]
      have h1 : (resolveGroup coin n items).1.length ≤ items.length :=
        resolveGroup_length coin n items (h (k, items) (by simp))
      have h2 := ih (resolveGroup coin n items).2 (fun p hp => h p (by simp [hp]))
      have : totalSize ((k, items) :: rest) = items.length + totalSize rest := by
        simp [totalSize]
      omega
theorem dedupGroups_ne_nil (coin : Nat → Bool) (gs : List (String × List Registro))
    (n : Nat) (p : String × List Registro) (hp : p ∈ gs)
    (h : ∀ m, (resolveGroup coin m p.2).1 ≠ []) : dedupGroups coin gs n ≠ [] := by
  induction gs generalizing n with
  | nil => simp at hp
  | cons hd rest ih =>
      obtain ⟨k, items⟩ := hd
      simp only [dedupGroups]
      rcases List.mem_cons.mp hp with hp1 | hp1
      · subst hp1
        intro hc
        exact h n (List.append_eq_nil.mp hc).1
      · intro hc
        exact ih _ hp1 (List.append_eq_nil.mp hc).2
theorem dedupGroups_eq_join (coin : Nat → Bool) (gs : List (String × List Registro))
    (n : Nat) (h : ∀ p ∈ gs, ∀ m, (resolveGroup coin m p.2).1 = p.2) :
    dedupGroups coin gs n = gsJoin gs := by
  induction gs generalizing n with
  | nil => simp [dedupGroups, gsJoin]
  | cons hd rest ih =>
      obtain ⟨k, items⟩ := hd
      simp only [dedupGroups, gsJoin_cons]
      rw [h (k, items) (by simp) n, ih _ (fun p hp m => h p (by simp [hp]) m)]
theorem dedupGroups_filter_faces (coin : Nat → Bool) (gs : List (String × List Registro))
    (n : Nat) (k : String) (hnd : (gs.map Prod.fst).Nodup)
    (hkey : ∀ p ∈ gs, ∀ r ∈ p.2, ∀ k2, rawKey r = some k2 → k2 = p.1) :
    FacesDistinct ((dedupGroups coin gs n).filter (fun r => decide (rawKey r = some k))) := by
  induction gs generalizing n with
  | nil => simp [dedupGroups, FacesDistinct]
  | cons hd rest ih =>
      obtain ⟨k1, items⟩ := hd
      simp only [dedupGroups, List.filter_append]
      simp only [List.map_cons, List.nodup_cons] at hnd
      by_cases hk : k = k1
      · subst hk
        have hrest : (dedupGroups coin rest (resolveGroup coin n items).2).filter
            (fun r => decide (rawKey r = some k)) = [] := by
          rw [List.filter_eq_nil_iff]
          intro r hr
          rcases dedupGroups_subset coin rest _ r hr with ⟨p, hp, hp2⟩
          simp only [decide_eq_true_eq]
          intro hc
          have := hkey p (by simp [hp]) r hp2 k hc
          exact hnd.1 (this ▸ List.mem_map_of_mem Prod.fst hp)
        rw [hrest, List.append_nil]
        exact List.Pairwise.filter _ (resolveGroup_facesDistinct coin n items)
      · have hemit : ((resolveGroup coin n items).1).filter
            (fun r => decide (rawKey r = some k)) = [] := by
          rw [List.filter_eq_nil_iff]
          intro r hr
          simp only [decide_eq_true_eq]
          intro hc
          have hmem := resolveGroup_subset coin n items r hr
          exact hk (hkey (k1, items) (by simp) r hmem k hc)
        rw [hemit, List.nil_append]
        exact ih _ hnd.2 (fun p hp => hkey p (by simp [hp]))
theorem groupRecords_nodup_keys (g : Nat → Nat) (recs : List Registro) :
    ((groupRecords g recs).map Prod.fst).Nodup :=
  nodupKeys_groupsAux _ _ (by simp)
theorem groupRecords_lookup (g : Nat → Nat) (recs : List Registro) (k : String) :
    lookupGroup (groupRecords g recs) k =
      ((keyedList g recs).filter (fun p => decide (p.1 = k))).map Prod.snd := by
  unfold groupRecords
  rw [lookupGroup_groupsAux]
  simp [lookupGroup]
theorem groupRecords_mem_eq (g : Nat → Nat) (recs : List Registro) (k : String)
    (l : List Registro) (h : (k, l) ∈ groupRecords g recs) :
    l = ((keyedList g recs).filter (fun p => decide (p.1 = k))).map Prod.snd := by
  rw [← groupRecords_lookup]
  exact (mem_groups_lookup _ _ _ (groupRecords_nodup_keys g recs) h).symm
theorem groupRecords_member_key (g : Nat → Nat) (recs : List Registro) (k : String)
    (l : List Registro) (h : (k, l) ∈ groupRecords g recs) (r : Registro) (hr : r ∈ l)
    (k2 : String) (hk2 : rawKey r = some k2) : k2 = k := by
  rw [groupRecords_mem_eq g recs k l h] at hr
  rcases List.mem_map.mp hr with ⟨p, hp, hp2⟩
  have hp3 := List.mem_filter.mp hp
  have h1 := keyedListFrom_key g 0 recs p hp3.1 k2 (by rw [hp2]; exact hk2)
  have hpk : p.1 = k := by simpa using hp3.2
  rw [h1] at hpk
  exact hpk
theorem groupRecords_member_mem (g : Nat → Nat) (recs : List Registro) (k : String)
    (l : List Registro) (h : (k, l) ∈ groupRecords g recs) (r : Registro) (hr : r ∈ l) :
    r ∈ recs := by
  rw [groupRecords_mem_eq g recs k l h] at hr
  rcases List.mem_map.mp hr with ⟨p, hp, hp2⟩
  have hp3 := List.mem_filter.mp hp
  exact hp2 ▸ keyedListFrom_snd_mem g 0 recs p hp3.1
theorem groupRecords_ne_nil (g : Nat → Nat) (recs : List Registro) :
    ∀ p ∈ groupRecords g recs, p.2 ≠ [] :=
  ne_nil_groupsAux _ _ (by simp)
theorem groupRecords_totalSize (g : Nat → Nat) (recs : List Registro) :
    totalSize (groupRecords g recs) = recs.length := by
  unfold groupRecords
  rw [totalSize_groupsAux]
  simp [totalSize, keyedList, keyedListFrom_length]
theorem mem_gsJoin_groupRecords (g : Nat → Nat) (recs : List Registro) (x : Registro) :
    x ∈ gsJoin (groupRecords g recs) ↔ x ∈ recs := by
  unfold groupRecords
  rw [mem_gsJoin_groupsAux]
  simp [gsJoin, keyedList, keyedListFrom_map_snd]
theorem mem_groupRecords_of_mem (g : Nat → Nat) (recs : List Registro) (r : Registro)
    (hr : r ∈ recs) : ∃ p ∈ groupRecords g recs, r ∈ p.2 := by
  have := (mem_gsJoin_groupRecords g recs r).mpr hr
  unfold gsJoin at this
  rcases List.mem_flatten.mp this with ⟨l, hl, hrl⟩
  rcases List.mem_map.mp hl with ⟨p, hp, hp2⟩
  exact ⟨p, hp, hp2 ▸ hrl⟩
theorem buildFaces_ne_nil (coin : Nat → Bool) (items : List Registro) (n : Nat)
    (h : items ≠ []) : (buildFaces coin items [] n).1 ≠ [] := by
  cases items with
  | nil => exact absurd rfl h
  | cons item rest =>
      simp only [buildFaces]
      intro hc
      have h3 := buildFaces_length_ge coin rest
        (insertFace coin [] n item.face_number item).1
        (insertFace coin [] n item.face_number item).2
      rw [hc] at h3
      simp [insertFace] at h3
theorem resolveGroup_ne_nil (coin : Nat → Bool) (n : Nat) (items : List Registro)
    (r : Registro) (hr : r ∈ items)
    (hcond : r.face_number.isSome = true ∨ (price_value r).isSome = true) :
    (resolveGroup coin n items).1 ≠ [] := by
  unfold resolveGroup
  split_ifs with hface
  · simp only
    intro hc
    have h1 : items ≠ [] := fun he => by subst he; simp at hr
    exact buildFaces_ne_nil coin items n h1 (List.map_eq_nil_iff.mp hc)
  · simp only
    have hface2 : ∀ x ∈ items, x.face_number = none := by
      simp at hface
      exact hface
    have hpr : (price_value r).isSome = true := by
      rcases hcond with hc | hc
      · rw [hface2 r hr] at hc; simp at hc
      · exact hc
    have hsome := bestLoop_isSome coin items none none n (Or.inl rfl) ⟨r, hr, hpr⟩
    rcases hbl : (bestLoop coin items none none n).1 with _ | b
    · rw [hbl] at hsome; simp at hsome
    · simp [hbl]
theorem deduplicate_filter_faces (g : Nat → Nat) (coin : Nat → Bool)
    (recs : List Registro) (k : String) :
    FacesDistinct ((deduplicate g coin recs).filter
      (fun r => decide (rawKey r = some k))) := by
  unfold deduplicate
  exact dedupGroups_filter_faces coin _ 0 k (groupRecords_nodup_keys g recs)
    (fun p hp r hr k2 hk2 => groupRecords_member_key g recs p.1 p.2 hp r hr k2 hk2)
theorem groupRecords_facesDistinct_of_fresh (g2 : Nat → Nat) (out : List Registro)
    (hfresh : freshSynth g2 out)
    (hfd : ∀ k, FacesDistinct (out.filter (fun r => decide (rawKey r = some k)))) :
    ∀ p ∈ groupRecords g2 out, FacesDistinct p.2 := by
  intro p hp
  obtain ⟨k, l⟩ := p
  have hl := groupRecords_mem_eq g2 out k l hp
  by_cases hsyn : ∃ j, ∃ hj : j < out.length,
      rawKey (out.get ⟨j, hj⟩) = none ∧ synthKey g2 j = k
  · obtain ⟨j, hj, hnone, hk⟩ := hsyn
    have huniq : ∀ j2 (hj2 : j2 < out.length),
        keyOf g2 (0 + j2) (out.get ⟨j2, hj2⟩) = k ↔ j2 = j := by
      intro j2 hj2
      rw [Nat.zero_add]
      constructor
      · intro hc
        rcases hraw : rawKey (out.get ⟨j2, hj2⟩) with _ | s
        · simp only [keyOf, hraw] at hc
          by_contra hne
          exact hfresh.1 j2 j hj2 hj hne (hc.trans hk.symm)
        · simp only [keyOf, hraw] at hc
          subst hc
          exact absurd (by rw [hraw, hk])
            (hfresh.2 j hj (out.get ⟨j2, hj2⟩) (List.get_mem out _ _))
      · intro hc
        subst hc
        simp only [keyOf, hnone, hk]
    have := keyedListFrom_filter_one g2 out 0 j k hj huniq
    rw [keyedList] at hl
    rw [this] at hl
    simp at hl
    subst hl
    simp [FacesDistinct]
  · push_neg at hsyn
    have hreal : ∀ j (hj : j < out.length),
        rawKey (out.get ⟨j, hj⟩) = none → synthKey g2 (0 + j) ≠ k := by
      intro j hj hr
      rw [Nat.zero_add]
      exact hsyn j hj hr
    have := keyedListFrom_filter_real g2 out 0 k hreal
    rw [keyedList] at hl
    rw [this] at hl
    rw [hl]
    exact hfd k
theorem facesRecords_length (carta : Carta) (k : Nat) (faces : List Cara) :
    (facesRecords carta k faces).length = faces.length := by
  induction faces generalizing k with
  | nil => simp [facesRecords]
  | cons face rest ih => simp [facesRecords, ih]
theorem facesRecords_get (carta : Carta) (k : Nat) (faces : List Cara) (i : Nat)
    (hi : i < faces.length) (hi2 : i < (facesRecords carta k faces).length) :
    (facesRecords carta k faces).get ⟨i, hi2⟩ =
      filtrarCara carta (k + i) (faces.get ⟨i, hi⟩) := by
  induction faces generalizing k i with
  | nil => simp at hi
  | cons face rest ih =>
      cases i with
      | zero => simp [facesRecords]
      | succ i2 =>
          have e : k + (i2 + 1) = k + 1 + i2 := by omega
          simp only [facesRecords, List.get_cons_succ]
          rw [ih (k + 1) i2 (by simpa using hi) (by simpa [facesRecords_length] using hi2), e]
theorem facesRecords_cmc (carta : Carta) (k : Nat) (faces : List Cara) :
    ∀ r ∈ facesRecords carta k faces, r.cmc.isSome = true := by
  induction faces generalizing k with
  | nil => simp [facesRecords]
  | cons face rest ih =>
      intro r hr
      rcases List.mem_cons.mp hr with hr | hr
      · subst hr; rfl
      · exact ih (k + 1) r hr
theorem manaLoop_eq_sum (ts : List (List Char)) (a : Int) :
    manaLoop ts a = a + (ts.map tokenValue).sum := by
  induction ts generalizing a with
  | nil => simp [manaLoop]
  | cons t rest ih => simp [manaLoop, ih]; omega
theorem tokenValue_eq_spec (t : List Char) :
    tokenValue t = specTokenValue (stripChars t) := rfl
/-- C1: evaluation of the deduplicator at the failing input.  The claim
(and the code's own comment) say a group with no `face_number` always
emits exactly one record, its cheapest member; but for a group whose
every member lacks a parsable price, the `best` sentinel (`None`, price
`inf`) ties with the first member, and the resolution of
`random.choice([None, item])` that keeps `None` makes the group emit
nothing, while the opposite resolution keeps the member. -/
theorem dedup_grupo_sin_precio :
    deduplicate (fun _ => 0) (fun _ => true) [registroTope] = [] ∧
    deduplicate (fun _ => 0) (fun _ => false) [registroTope] = [registroTope] := by
  constructor <;> decide
/-- C2: a card with present non-empty `card_faces` projects to one record
per face in face order; each record copies the card's `oracle_id`, sets
`parent_id` to the card's `id`, takes the face's own `face_number` when
supplied (else the 0-based index), and recomputes `cmc` from the face's
own `mana_cost` with the evaluator. -/
theorem proyector_multicara (carta : Carta) (faces : List Cara)
    (hf : carta.card_faces = some faces) (hne : faces ≠ []) :
    (filtrar_carta carta).length = faces.length ∧
    ∀ i (hi : i < faces.length) (hi2 : i < (filtrar_carta carta).length),
      ((filtrar_carta carta).get ⟨i, hi2⟩).oracle_id = carta.oracle_id ∧
      ((filtrar_carta carta).get ⟨i, hi2⟩).parent_id = carta.id ∧
      ((filtrar_carta carta).get ⟨i, hi2⟩).face_number =
        some (((faces.get ⟨i, hi⟩).face_number).getD (i : Int)) ∧
      ((filtrar_carta carta).get ⟨i, hi2⟩).cmc =
        some (parse_mana_cost_to_cmc (faces.get ⟨i, hi⟩).mana_cost) := by
  have he : filtrar_carta carta = facesRecords carta 0 faces := by
    unfold filtrar_carta
    rw [hf]
    simp only [Option.getD_some]
    rw [if_pos (List.length_pos.mpr hne)]
  constructor
  · rw [he, facesRecords_length]
  · intro i hi
    rw [he]
    intro hi2
    rw [facesRecords_get carta 0 faces i hi hi2, Nat.zero_add]
    exact ⟨rfl, rfl, rfl, rfl⟩
/-- Witness for C2 at a concrete two-face card. -/
theorem proyector_multicara_witness :
    (filtrar_carta cartaDosCaras).length = 2 ∧
    ((filtrar_carta cartaDosCaras).get ⟨1, by decide⟩).face_number = some 1 ∧
    ((filtrar_carta cartaDosCaras).get ⟨1, by decide⟩).cmc = some 3 := by
  have h := proyector_multicara cartaDosCaras [blankCara, caraVerde] rfl (by simp)
  refine ⟨h.1, ?_, ?_⟩
  · exact (h.2 1 (by decide) (by decide)).2.2.1
  · rw [(h.2 1 (by decide) (by decide)).2.2.2]
    decide
/-- C3 counterexample: on the token text between braces in `"{ 2}"` the
claim's literal per-token rule yields 1 (the raw token `" 2"` is neither
purely numeric nor digit-led), but the code strips the token first and
returns 2. -/
theorem evaluador_strip_cex :
    parse_mana_cost_to_cmc (some "{ 2}") = 2 ∧ specEvaluate (some "{ 2}") = 1 := by
  constructor <;> decide
/-- C3 amended: the evaluator is total and pure; null gives 0, and
otherwise the result is the sum of the claim's per-token rule applied to
each bracketed token after stripping surrounding whitespace; the
claimed concrete examples all hold. -/
theorem evaluador_amended :
    parse_mana_cost_to_cmc none = 0 ∧
    (∀ s : String, parse_mana_cost_to_cmc (some s) = specEvaluateStripped (some s)) ∧
    parse_mana_cost_to_cmc (some "{2}{G}{U}") = 4 ∧
    parse_mana_cost_to_cmc (some "{X}{R}") = 2 ∧
    parse_mana_cost_to_cmc (some "{10}") = 10 ∧
    parse_mana_cost_to_cmc (some "{G/U}") = 1 := by
  refine ⟨rfl, ?_, by decide, by decide, by decide, by decide⟩
  intro s
  by_cases hs : s = ""
  · subst hs; rfl
  · simp only [parse_mana_cost_to_cmc, specEvaluateStripped]
    rw [if_neg hs, manaLoop_eq_sum]
    have ht : tokenValue = fun t => specTokenValue (stripChars t) :=
      funext tokenValue_eq_spec
    rw [← ht]
    omega
/-- C4: a card without a present non-empty `card_faces` yields exactly
one record, with null `parent_id`, the card's own `face_number`, and the
card's `cmc` copied verbatim. -/
theorem proyector_unacara (carta : Carta) (hf : carta.card_faces.getD [] = []) :
    (filtrar_carta carta).length = 1 ∧
    ∀ r ∈ filtrar_carta carta,
      r.parent_id = none ∧ r.face_number = carta.face_number ∧ r.cmc = carta.cmc := by
  have he : filtrar_carta carta = [filtrarSimple carta] := by
    unfold filtrar_carta
    rw [hf]
    simp
  rw [he]
  refine ⟨rfl, ?_⟩
  intro r hr
  have := List.mem_singleton.mp hr
  subst this
  exact ⟨rfl, rfl, rfl⟩
/-- Witness for C4 at a concrete single-face card. -/
theorem proyector_unacara_witness :
    (filtrar_carta cartaSimple).length = 1 ∧
    (filtrarSimple cartaSimple).cmc = some 5 := by
  have h := proyector_unacara cartaSimple rfl
  refine ⟨h.1, ?_⟩
  rw [(h.2 (filtrarSimple cartaSimple) (by decide)).2.2]
  rfl
/-- C5 counterexample: re-deduplicating deduplicate's own output is not
a fixed point for every resolution: a keyed, unpriced record survives
the first pass under one tie resolution and vanishes in the second pass
under the resolution that keeps the `None` sentinel. -/
theorem dedup_idem_cex :
    deduplicate (fun _ => 0) (fun _ => false) [regTristeza] = [regTristeza] ∧
    deduplicate (fun _ => 0) (fun _ => true)
      (deduplicate (fun _ => 0) (fun _ => false) [regTristeza]) = [] := by
  constructor <;> decide
/-- C5 amended: re-deduplicating the output yields the same set of
records for every first-run resolution, whenever the second run's
synthetic keys are fresh for the output and its tie choices keep the
newly considered candidate (so the `None` sentinel is never retained). -/
theorem dedup_idem_amended (g g2 : Nat → Nat) (coin : Nat → Bool)
    (recs : List Registro)
    (hfresh : freshSynth g2 (deduplicate g coin recs)) :
    ∀ r, r ∈ deduplicate g2 (fun _ => false) (deduplicate g coin recs) ↔
      r ∈ deduplicate g coin recs := by
  intro r
  have hA : ∀ p ∈ groupRecords g2 (deduplicate g coin recs), FacesDistinct p.2 :=
    groupRecords_facesDistinct_of_fresh g2 (deduplicate g coin recs) hfresh
      (fun k => deduplicate_filter_faces g coin recs k)
  have hB := groupRecords_ne_nil g2 (deduplicate g coin recs)
  have heq : deduplicate g2 (fun _ => false) (deduplicate g coin recs) =
      gsJoin (groupRecords g2 (deduplicate g coin recs)) := by
    unfold deduplicate
    exact dedupGroups_eq_join _ _ 0
      (fun p hp m => by
        rw [resolveGroup_eq_self m p.2 (hA p hp) (hB p hp)])
  rw [heq, mem_gsJoin_groupRecords]
/-- Witness for C5 at a concrete keyed priced record with fresh keys. -/
theorem dedup_idem_amended_witness :
    regClaveW ∈ deduplicate (fun _ => 0) (fun _ => false)
      (deduplicate (fun i => i) (fun _ => false) [regClaveW]) := by
  have hfr : freshSynth (fun _ => 0)
      (deduplicate (fun i => i) (fun _ => false) [regClaveW]) := by
    have hout : deduplicate (fun i => i) (fun _ => false) [regClaveW] = [regClaveW] := by
      decide
    rw [hout]
    constructor
    · intro i j hi hj hne
      simp at hi hj
      omega
    · intro i hi r hr
      simp at hi hr
      subst hi
      subst hr
      decide
  exact (dedup_idem_amended (fun i => i) (fun _ => 0) (fun _ => false) [regClaveW]
    hfr regClaveW).mpr (by decide)
/-- C6 counterexample: under the resolution in which `getrandbits`
returns the same value for both keyless records, the two records share
one synthetic key, form one group, and the cheaper one eliminates the
other from the output — so a keyless record is not a singleton group for
every resolution. -/
theorem clave_sintetica_cex :
    groupRecords (fun _ => 0) [regSinClaveA, regSinClaveB] =
      [("_no_oracle_0", [regSinClaveA, regSinClaveB])] ∧
    deduplicate (fun _ => 0) (fun _ => false) [regSinClaveA, regSinClaveB] =
      [regSinClaveA] := by
  constructor <;> decide
/-- C6 amended: whenever the resolution's synthetic keys are pairwise
distinct and collide with no record's fallback-chain key, a record
lacking `oracle_id`, `parent_id` and `id` forms its own singleton group
under its synthetic key. -/
theorem clave_sintetica_singleton (g : Nat → Nat) (recs : List Registro) (i : Nat)
    (hi : i < recs.length) (hfresh : freshSynth g recs)
    (hkey : rawKey (recs.get ⟨i, hi⟩) = none) :
    (synthKey g i, [recs.get ⟨i, hi⟩]) ∈ groupRecords g recs := by
  have huniq : ∀ j (hj : j < recs.length),
      keyOf g (0 + j) (recs.get ⟨j, hj⟩) = synthKey g i ↔ j = i := by
    intro j hj
    rw [Nat.zero_add]
    constructor
    · intro hc
      rcases hraw : rawKey (recs.get ⟨j, hj⟩) with _ | s
      · simp only [keyOf, hraw] at hc
        by_contra hne
        exact hfresh.1 j i hj hi hne hc
      · simp only [keyOf, hraw] at hc
        subst hc
        exact absurd hraw (hfresh.2 i hi (recs.get ⟨j, hj⟩) (List.get_mem recs _ _))
    · intro hc
      subst hc
      have hkey2 : rawKey (recs.get ⟨j, hj⟩) = none := hkey
      simp only [keyOf, hkey2]
  have hfil := keyedListFrom_filter_one g recs 0 i (synthKey g i) hi huniq
  have hmemk : (synthKey g i, recs.get ⟨i, hi⟩) ∈ keyedList g recs := by
    have hm : (synthKey g i, recs.get ⟨i, hi⟩) ∈
        (keyedList g recs).filter (fun p => decide (p.1 = synthKey g i)) := by
      unfold keyedList
      rw [hfil]
      simp
    exact (List.mem_filter.mp hm).1
  have hkeys : synthKey g i ∈ (groupRecords g recs).map Prod.fst := by
    unfold groupRecords
    rw [keys_groupsAux_mem]
    exact Or.inr (List.mem_map_of_mem Prod.fst hmemk)
  have hlook : lookupGroup (groupRecords g recs) (synthKey g i) =
      [recs.get ⟨i, hi⟩] := by
    rw [groupRecords_lookup]
    unfold keyedList
    rw [hfil]
    simp
  have hm2 := lookup_mem_groups (groupRecords g recs) (synthKey g i) hkeys
  rw [hlook] at hm2
  exact hm2
/-- Witness for C6 at a concrete keyless record. -/
theorem clave_sintetica_singleton_witness :
    (synthKey (fun _ => 0) 0, [([blankRegistro] : List Registro).get ⟨0, by decide⟩]) ∈
      groupRecords (fun _ => 0) [blankRegistro] := by
  apply clave_sintetica_singleton (fun _ => 0) [blankRegistro] 0 (by decide)
  · constructor
    · intro i j hi hj hne
      simp at hi hj
      omega
    · intro i hi r hr
      simp at hi hr
      subst hi
      subst hr
      decide
  · decide
/-- C7: the orchestrator converts every escaping exception class into
the `None` failure signal, and a snapshot name is returned exactly when
the body completed and produced one — callers distinguish success from
failure solely by the returned name. -/
theorem orquestador_frontera (env : FetchEnv) :
    (∀ e, descargarBody env = Except.error e → descargar_cartas_scryfall env = none) ∧
    (∀ n, descargar_cartas_scryfall env = some n ↔
      descargarBody env = Except.ok (some n)) := by
  constructor
  · intro e he
    unfold descargar_cartas_scryfall
    rw [he]
  · intro n
    unfold descargar_cartas_scryfall
    cases hb : descargarBody env with
    | ok r => simp
    | error e => simp
/-- Witness for C7 at an environment whose first request raises. -/
theorem orquestador_frontera_witness :
    descargar_cartas_scryfall envFallo = none :=
  (orquestador_frontera envFallo).1 PyError.requestError rfl
/-- C8 counterexample: a single-face card without a `cmc` field projects
to a record whose `cmc` is null, not an integer — the single-face path
copies the field verbatim rather than guaranteeing an integer. -/
theorem cmc_entero_cex :
    (filtrar_carta blankCarta).all (fun r => r.cmc.isSome) = false := by decide
/-- C8 amended: every record of the multi-face path carries an integer
`cmc` (computed by the evaluator), while every record of the single-face
path carries the source card's `cmc` verbatim — an integer exactly when
the source supplies one. -/
theorem cmc_entero_amended (carta : Carta) :
    ((carta.card_faces.getD []).length > 0 →
      ∀ r ∈ filtrar_carta carta, r.cmc.isSome = true) ∧
    ((carta.card_faces.getD []).length = 0 →
      ∀ r ∈ filtrar_carta carta, r.cmc = carta.cmc) := by
  constructor
  · intro hlen r hr
    unfold filtrar_carta at hr
    rw [if_pos hlen] at hr
    exact facesRecords_cmc carta 0 _ r hr
  · intro hlen r hr
    unfold filtrar_carta at hr
    rw [if_neg (by omega)] at hr
    have := List.mem_singleton.mp hr
    subst this
    rfl
/-- Witness for C8 at a concrete two-face card. -/
theorem cmc_entero_amended_witness :
    (filtrar_carta cartaDosCaras).all (fun r => r.cmc.isSome) = true := by
  rw [List.all_eq_true]
  intro r hr
  exact (cmc_entero_amended cartaDosCaras).1 (by decide) r hr
/-- C9 counterexample: a non-empty input can produce an empty output: a
single keyed record with no parsable price is dropped entirely under the
tie resolution that keeps the `None` sentinel. -/
theorem dedup_conserva_cex :
    ([regFantasma] : List Registro) ≠ [] ∧
    deduplicate (fun _ => 0) (fun _ => true) [regFantasma] = [] := by
  constructor
  · simp
  · decide
/-- C9 amended: the deduplicator creates and modifies nothing — every
output record is an input record, unchanged, and there are at most as
many outputs as inputs; the output is non-empty whenever the input is
non-empty and some input record has a non-null `face_number` or a
parsable price. -/
theorem dedup_conserva (g : Nat → Nat) (coin : Nat → Bool) (recs : List Registro) :
    (∀ r ∈ deduplicate g coin recs, r ∈ recs) ∧
    (deduplicate g coin recs).length ≤ recs.length ∧
    ((∃ r ∈ recs, r.face_number.isSome = true ∨ (price_value r).isSome = true) →
      deduplicate g coin recs ≠ []) := by
  refine ⟨?_, ?_, ?_⟩
  · intro r hr
    unfold deduplicate at hr
    rcases dedupGroups_subset coin _ 0 r hr with ⟨p, hp, hp2⟩
    exact groupRecords_member_mem g recs p.1 p.2 hp r hp2
  · unfold deduplicate
    have h := dedupGroups_length coin (groupRecords g recs) 0 (groupRecords_ne_nil g recs)
    rwa [groupRecords_totalSize] at h
  · rintro ⟨r, hr, hcond⟩
    unfold deduplicate
    rcases mem_groupRecords_of_mem g recs r hr with ⟨p, hp, hp2⟩
    exact dedupGroups_ne_nil coin _ 0 p hp
      (fun m => resolveGroup_ne_nil coin m p.2 r hp2 hcond)
/-- Witness for C9 at a concrete priced record. -/
theorem dedup_conserva_witness :
    deduplicate (fun _ => 0) (fun _ => true) [regPrecio] ≠ [] :=
  (dedup_conserva (fun _ => 0) (fun _ => true) [regPrecio]).2.2
    ⟨regPrecio, by simp, Or.inr (by decide)⟩
/-- C10: the identity-key fallback is decided by truthiness — a record
whose `oracle_id` is the empty string gets exactly the key it would get
with `oracle_id` absent, for every position and synthetic-key
resolution. -/
theorem clave_por_veracidad (rec : Registro) (h : rec.oracle_id = some "") :
    rawKey rec = rawKey { rec with oracle_id := none } ∧
    ∀ (g : Nat → Nat) (i : Nat),
      keyOf g i rec = keyOf g i { rec with oracle_id := none } := by
  have h2 : rawKey rec = rawKey { rec with oracle_id := none } := by
    unfold rawKey
    rw [h]
    simp [truthy, show "".isEmpty = true from rfl]
  exact ⟨h2, fun g i => by unfold keyOf; rw [h2]⟩
/-- Witness for C10 at a concrete record with empty `oracle_id`. -/
theorem clave_por_veracidad_witness :
    rawKey regOracleVacio = rawKey { regOracleVacio with oracle_id := none } :=
  (clave_por_veracidad regOracleVacio rfl).1
